import Mathlib

/-!
Verification of the agentic-memory backend (demo/backend).

Shallow embedding of the memory-management core:
  * `memory/compression.py`  — token counting, summarization trigger, budget pruning
  * `memory/user_profile.py` — dedup merge and profile updates
  * `memory/skills.py`       — keyword-scored skill matching
  * `memory/vector_store.py` — recency-boosted reranking of retrieved memories
  * `memory/session_store.py`, `agent.py` — session state and the orchestrated turn

Python strings are modelled as `List Char`; Python floats (timestamps and
scores) as exact rationals, with the single exponential `2 ** (-age/48)`
modelled in `ℝ` via `rpow`; `round(x, 4)` is modelled as exact rounding of the
real value at scale `10^4`.  Fallible external calls (the Gemini client) are
modelled as `Except Unit` values supplied by an environment.
-/

/-- Python `str` modelled as a list of characters. -/
abbrev Str : Type := List Char

/-- Python `str.lower()` (ASCII case folding). -/
def lowerStr (s : Str) : Str := s.map Char.toLower

/-- Python `str.strip()`: drop leading and trailing whitespace. -/
def trimStr (s : Str) : Str :=
  ((s.dropWhile Char.isWhitespace).reverse.dropWhile Char.isWhitespace).reverse

/-- The normalization `x.lower().strip()` used by the dedup merge. -/
def normStr (s : Str) : Str := trimStr (lowerStr s)

/-! ## compression.py -/

/-- A session message `{role, content, timestamp}` (session_store.add_message). -/
structure Msg where
  role : Str
  content : Str
  timestamp : ℚ
  deriving DecidableEq, Repr

/-- `CompressionEngine.SUMMARY_TRIGGER_MESSAGES`. -/
def SUMMARY_TRIGGER_MESSAGES : ℕ := 6

/-- `CompressionEngine.MAX_CONTEXT_TOKENS`. -/
def MAX_CONTEXT_TOKENS : ℕ := 2000

/-- `CompressionEngine.count_tokens`: `len(text) // 4`. -/
def count_tokens (text : Str) : ℕ := text.length / 4

/-- `CompressionEngine.should_summarize`: `len(messages) >= SUMMARY_TRIGGER_MESSAGES`. -/
def should_summarize (messages : List Msg) : Bool :=
  decide (SUMMARY_TRIGGER_MESSAGES ≤ messages.length)

/-- Total approximate token count of a message list
(`sum(self.count_tokens(m["content"]) for m in messages)`). -/
def totalTokens (messages : List Msg) : ℕ :=
  (messages.map (fun m => count_tokens m.content)).sum

/-- The pruning statistics dict built by `prune_messages_to_budget`.
`dropped_messages` is only present on the pruned path, hence `Option`. -/
structure PruneStats where
  original_messages : ℕ
  original_tokens : ℕ
  budget : ℕ
  pruned : Bool
  strategy : Str
  final_messages : ℕ
  final_tokens : ℕ
  dropped_messages : Option ℕ
  deriving DecidableEq, Repr

/-- The backward walk of `prune_messages_to_budget` (`for m in reversed(messages)`),
processing the reversed message list; returns the kept messages in reversed
order.  `kept.insert(0, m)` together with the iteration order means the final
kept list is the reverse of what this accumulates. -/
def pruneWalk (budget : ℕ) : List Msg → ℕ → List Msg
  | [], _ => []
  | m :: rest, used =>
    if budget < used + count_tokens m.content then []
    else m :: pruneWalk budget rest (used + count_tokens m.content)

/-- `CompressionEngine.prune_messages_to_budget`.  The `summary` argument is
accepted and unused, exactly as in the source.  `token_budget or
self.MAX_CONTEXT_TOKENS` makes a `0`/`None` budget fall back to the default. -/
def prune_messages_to_budget (messages : List Msg) (_summary : Option Str)
    (token_budget : Option ℕ := none) : List Msg × PruneStats :=
  let budget : ℕ :=
    match token_budget with
    | some b => if b = 0 then MAX_CONTEXT_TOKENS else b
    | none => MAX_CONTEXT_TOKENS
  let total_tokens := totalTokens messages
  if total_tokens ≤ budget then
    (messages,
      { original_messages := messages.length
        original_tokens := total_tokens
        budget := budget
        pruned := false
        strategy := "none".toList
        final_messages := messages.length
        final_tokens := total_tokens
        dropped_messages := none })
  else
    let kept := (pruneWalk budget messages.reverse 0).reverse
    (kept,
      { original_messages := messages.length
        original_tokens := total_tokens
        budget := budget
        pruned := true
        strategy := "keep_recent_with_summary".toList
        final_messages := kept.length
        final_tokens := totalTokens kept
        dropped_messages := some (messages.length - kept.length) })

/-! ## user_profile.py — the dedup merge -/

/-- One pass of the inner loop of `UserProfileStore._dedup_list` for a single
incoming item `new` over the current `result` list: the first entry related to
`new` decides its fate (duplicate → drop, existing-substring-of-new → replace
in place), scanning stops there; if no entry is related, `new` is appended. -/
def dedupInsert (new : Str) : List Str → List Str
  | [] => [new]
  | old :: rest =>
    if normStr new = normStr old then old :: rest
    else if normStr new <:+: normStr old then old :: rest
    else if normStr old <:+: normStr new then new :: rest
    else old :: dedupInsert new rest

/-- `UserProfileStore._dedup_list`: fold every incoming item into the
(initially `existing`) result list. -/
def dedupList (existing new_items : List Str) : List Str :=
  new_items.foldl (fun result new => dedupInsert new result) existing

/-! ## user_profile.py — profile dicts and `update_profile` -/

/-- JSON-ish values stored in a profile dict.  Extraction returns string
values, string→string preference dicts, lists of strings, numbers and null;
`isinstance(value, dict)` / `isinstance(value, list)` correspond to the
`vDict` / `vList` constructors. -/
inductive Value where
  | vNull : Value
  | vStr : Str → Value
  | vNum : ℚ → Value
  | vDict : List (Str × Str) → Value
  | vList : List Str → Value
  deriving DecidableEq, Repr

open Value

/-- An insertion-ordered Python dict with `α`-typed values. -/
abbrev PyDict (α : Type) := List (Str × α)

/-- Python dict assignment `d[k] = v`: update in place if the key exists,
otherwise append. -/
def dictSet {α : Type} : PyDict α → Str → α → PyDict α
  | [], k, v => [(k, v)]
  | (k0, v0) :: rest, k, v =>
    if k0 = k then (k, v) :: rest else (k0, v0) :: dictSet rest k v

/-- Python dict lookup `d.get(k)`. -/
def dictGet {α : Type} : PyDict α → Str → Option α
  | [], _ => none
  | (k0, v0) :: rest, k => if k0 = k then some v0 else dictGet rest k

/-- A profile as stored by `UserProfileStore` (a JSON object). -/
abbrev Profile := PyDict Value

/-- `UserProfileStore._default_profile`. -/
def default_profile (user_id : Str) (now : ℚ) : Profile :=
  [("user_id".toList, vStr user_id),
   ("name".toList, vNull),
   ("preferences".toList, vDict []),
   ("constraints".toList, vList []),
   ("facts".toList, vList []),
   ("created_at".toList, vNum now),
   ("updated_at".toList, vNum now)]

/-- `profile.get(key, [])` as used by the constraints/facts branches: the
stored list when the key holds one, `[]` when the key is absent. -/
def getListD (p : Profile) (k : Str) : List Str :=
  match dictGet p k with
  | some (vList l) => l
  | _ => []

/-- `profile.setdefault("preferences", {})` as used by the preferences branch:
the stored dict when the key holds one, `{}` when the key is absent. -/
def getPrefsD (p : Profile) : PyDict Str :=
  match dictGet p ("preferences".toList) with
  | some (vDict d) => d
  | _ => []

/-- `dict.update(value)`: set every key of `value` in insertion order. -/
def prefsUpdate (base : PyDict Str) (value : PyDict Str) : PyDict Str :=
  value.foldl (fun acc kv => dictSet acc kv.1 kv.2) base

/-- One iteration of the `for key, value in updates.items()` loop of
`UserProfileStore.update_profile`.  The `isinstance` guards are expressed by
matching on the value's constructor: a `"preferences"` key with a non-dict
value, or a `"constraints"`/`"facts"` key with a non-list value, falls through
to the plain-assignment `else` branch just as in the source. -/
def updateStep (profile : Profile) (kv : Str × Value) : Profile :=
  match kv with
  | (key, vDict d) =>
    if key = "preferences".toList then
      dictSet profile ("preferences".toList)
        (vDict (prefsUpdate (getPrefsD profile) d))
    else dictSet profile key (vDict d)
  | (key, vList l) =>
    if key = "constraints".toList then
      dictSet profile ("constraints".toList)
        (vList (dedupList (getListD profile ("constraints".toList)) l))
    else if key = "facts".toList then
      dictSet profile ("facts".toList)
        (vList (dedupList (getListD profile ("facts".toList)) l))
    else dictSet profile key (vList l)
  | (key, value) => dictSet profile key value

/-- `UserProfileStore.update_profile` (pure core: the surrounding file read and
write are the durable-store collaborator).  Applies every update in order,
then stamps `updated_at`. -/
def update_profile (now : ℚ) (profile : Profile) (updates : List (Str × Value)) : Profile :=
  dictSet (updates.foldl updateStep profile) ("updated_at".toList) (vNum now)

/-! ## A stable descending insertion sort

Python's `list.sort(key=..., reverse=True)` is stable: elements whose keys
compare equal keep their original relative order (reversal applies to the
comparison, not to equal runs).  `insertByDesc` places a new element before
the first strictly-smaller key, hence after every earlier element with an
equal key. -/

def insertByDesc {α K : Type} [LinearOrder K] (key : α → K) (x : α) :
    List α → List α
  | [] => [x]
  | y :: ys => if key y ≤ key x then x :: y :: ys else y :: insertByDesc key x ys

/-- Stable sort, descending by `key`. -/
def sortByDesc {α K : Type} [LinearOrder K] (key : α → K) : List α → List α
  | [] => []
  | x :: xs => insertByDesc key x (sortByDesc key xs)

/-! ## skills.py -/

/-- `SkillSummary` (skills.py). -/
structure SkillSummary where
  id : Str
  name : Str
  summary : Str
  file_path : Str
  keywords : List Str
  deriving DecidableEq, Repr

/-- The score the `match_skills` loop computes for one skill: one point per
keyword whose lower-casing occurs in the lower-cased query, plus two if the
lower-cased skill name occurs in the lower-cased query. -/
def skillScore (query_lower : Str) (skill : SkillSummary) : ℕ :=
  (skill.keywords.countP (fun kw => decide (lowerStr kw <:+: query_lower))) +
    (if lowerStr skill.name <:+: query_lower then 2 else 0)

/-- `SkillsLoader.match_skills`: collect `(score, skill)` for skills with
positive score in index order, stable-sort descending by score, return the
skills. -/
def match_skills (index : List SkillSummary) (query : Str) : List SkillSummary :=
  let query_lower := lowerStr query
  let matched := index.filterMap (fun skill =>
    let score := skillScore query_lower skill
    if 0 < score then some (score, skill) else none)
  (sortByDesc (fun x => x.1) matched).map (fun x => x.2)

/-! ## vector_store.py — `retrieve_memories` -/

/-- A raw candidate returned by the Milvus similarity search: the similarity
score (`hit["distance"]`) plus the stored attributes used by the reranker.
`timestamp` is `Option`al because the code defaults a missing timestamp to
`now` (`hit["entity"].get("timestamp", now)`). -/
structure Hit where
  distance : ℚ
  text : Str
  mem_id : Str
  timestamp : Option ℚ
  deriving DecidableEq, Repr

/-- One entry of the reranked `scored` list built by `retrieve_memories`. -/
structure ScoredMem where
  text : Str
  mem_id : Str
  similarity : ℚ
  recency_score : ℚ
  combined_score : ℚ
  timestamp : ℚ
  deriving DecidableEq, Repr

/-- Python `round(x, 4)` on an exact real value: round to an integer at scale
`10^4`.  (CPython rounds the nearest binary double half-to-even; on the exact
values appearing here the scaled value is never a half-integer, so the
half-rule is immaterial.) -/
noncomputable def round4R (x : ℝ) : ℚ := ((round (x * 10000) : ℤ) : ℚ) / 10000

/-- `round(x, 4)` on a rational value (same rounding at scale `10^4`). -/
def round4 (q : ℚ) : ℚ := ((round (q * 10000) : ℤ) : ℚ) / 10000

/-- `age_hours = (now - ts) / 3600`. -/
def ageHours (now ts : ℚ) : ℚ := (now - ts) / 3600

/-- `recency_score = 2 ** (-age_hours / 48)` (halves every 48 hours). -/
noncomputable def recencyScore (age_hours : ℚ) : ℝ :=
  (2 : ℝ) ^ (-(age_hours : ℝ) / 48)

/-- `combined = (1 - recency_weight) * similarity + recency_weight * recency_score`. -/
noncomputable def combinedScore (recency_weight similarity : ℚ) (recency : ℝ) : ℝ :=
  (1 - (recency_weight : ℝ)) * (similarity : ℝ) + (recency_weight : ℝ) * recency

/-- The body of the `for hit in results[0]` loop of `retrieve_memories`:
a missing timestamp defaults to `now`, then age in hours, exponential recency
decay with 48-hour half-life, the convex combination of similarity and
recency, and 4-decimal rounding of each reported score. -/
noncomputable def scoreHit (now recency_weight : ℚ) (h : Hit) : ScoredMem :=
  let ts : ℚ := h.timestamp.getD now
  { text := h.text
    mem_id := h.mem_id
    similarity := round4 h.distance
    recency_score := round4R (recencyScore (ageHours now ts))
    combined_score := round4R (combinedScore recency_weight h.distance
      (recencyScore (ageHours now ts)))
    timestamp := ts }

/-- `VectorMemoryStore.retrieve_memories`, from the similarity-search results
on: empty candidate set short-circuits to `[]`; otherwise score every hit,
`scored.sort(key=lambda x: x["combined_score"], reverse=True)` (stable,
single key), and return the first `top_k`. -/
noncomputable def retrieve_memories (now : ℚ) (hits : List Hit) (top_k : ℕ)
    (recency_weight : ℚ) : List ScoredMem :=
  if hits = [] then []
  else
    (sortByDesc (fun s => s.combined_score) (hits.map (scoreHit now recency_weight))).take top_k

/-! ## session_store.py and agent.py — the orchestrated turn -/

/-- A chat session as stored by `SessionStore` (one session record). -/
structure Session where
  session_id : Str
  user_id : Str
  title : Str
  messages : List Msg
  summary : Option Str
  created_at : ℚ
  updated_at : ℚ
  deriving DecidableEq, Repr

/-- The auto-title derived from the first user message:
`content[:60].strip() + ("..." if len(content) > 60 else "")`. -/
def autoTitle (content : Str) : Str :=
  trimStr (content.take 60) ++ (if 60 < content.length then "...".toList else [])

/-- `SessionStore.add_message` on an existing session: append the message,
derive the title from the first user message, stamp `updated_at`. -/
def add_message (now : ℚ) (s : Session) (role content : Str) : Session :=
  let s := { s with messages := s.messages ++ [Msg.mk role content now] }
  let s :=
    if role = "user".toList ∧ s.title = "New session".toList then
      { s with title := autoTitle content }
    else s
  { s with updated_at := now }

/-- `SessionStore.set_summary` on an existing session. -/
def set_summary (now : ℚ) (s : Session) (summary : Str) : Session :=
  { s with summary := some summary, updated_at := now }

/-- Outcomes of the external Gemini calls made during one turn of
`OpsAgent.chat`.  Each fallible collaborator call is an `Except Unit` value:
`.error ()` models the call raising.  (The read-only retrieval and context-
assembly steps 2–6 build the prompt that determines `genReply` and have no
effect on the session, profile or memory stores, so their outputs are folded
into the environment.) -/
structure ChatEnv where
  now : ℚ
  genReply : Except Unit Str
  extractMems : Except Unit (List (Str × Str))
  extractProfile : Except Unit (List (Str × Value))
  summarize : Except Unit Str

/-- The observable outcome of one `OpsAgent.chat` turn: the persisted session,
profile and memory stores, plus either the reply or the surfaced exception. -/
structure ChatOut where
  session : Session
  profile : Profile
  memStore : List (Str × Str)
  result : Except Unit Str
  deriving Repr

/-- `OpsAgent.chat`, steps in source order:
1. store the user message;
7. call Gemini — a failure here aborts the turn (propagates);
8. store the assistant reply;
9. extract & upsert memories inside `try/except` — a failure is swallowed;
10. extract & apply profile updates inside `try/except` — a failure is
    swallowed; an empty update dict skips `update_profile` entirely;
11. if `should_summarize` over the full updated history, call
    `rolling_summarize` and `set_summary` — **not** wrapped in `try/except`,
    so a failure of the generation call propagates to the caller and
    `set_summary` is never reached. -/
def chat (env : ChatEnv) (s0 : Session) (profile0 : Profile)
    (memStore0 : List (Str × Str)) (message : Str) : ChatOut :=
  let s1 := add_message env.now s0 ("user".toList) message
  match env.genReply with
  | .error e => ⟨s1, profile0, memStore0, .error e⟩
  | .ok reply =>
    let s2 := add_message env.now s1 ("assistant".toList) reply
    let memStore1 :=
      match env.extractMems with
      | .ok mems => memStore0 ++ mems
      | .error _ => memStore0
    let profile1 :=
      match env.extractProfile with
      | .ok updates =>
        if updates = [] then profile0 else update_profile env.now profile0 updates
      | .error _ => profile0
    if should_summarize s2.messages then
      match env.summarize with
      | .error e => ⟨s2, profile1, memStore1, .error e⟩
      | .ok summ => ⟨set_summary env.now s2 summ, profile1, memStore1, .ok reply⟩
    else ⟨s2, profile1, memStore1, .ok reply⟩

/-! ## Lemmas about the stable descending sort -/

theorem mem_insertByDesc {α K : Type} [LinearOrder K] (key : α → K) (x : α)
    (l : List α) {z : α} (hz : z ∈ insertByDesc key x l) : z = x ∨ z ∈ l := by
  induction l with
  | nil => simpa [insertByDesc] using hz
  | cons y ys ih =>
    by_cases h : key y ≤ key x
    · simpa [insertByDesc, h, or_assoc] using hz
    · simp only [insertByDesc, if_neg h, List.mem_cons] at hz
      rcases hz with hz | hz
      · exact Or.inr (by simp [hz])
      · rcases ih hz with hz' | hz'
        · exact Or.inl hz'
        · exact Or.inr (by simp [hz'])

theorem insertByDesc_perm {α K : Type} [LinearOrder K] (key : α → K) (x : α)
    (l : List α) : List.Perm (insertByDesc key x l) (x :: l) := by
  induction l with
  | nil => simp [insertByDesc]
  | cons y ys ih =>
    by_cases h : key y ≤ key x
    · simp [insertByDesc, h]
    · simp only [insertByDesc, if_neg h]
      exact (ih.cons y).trans (List.Perm.swap x y ys)

theorem pairwise_insertByDesc {α K : Type} [LinearOrder K] (key : α → K) (x : α)
    {l : List α} (h : l.Pairwise (fun a b => key b ≤ key a)) :
    (insertByDesc key x l).Pairwise (fun a b => key b ≤ key a) := by
  induction l with
  | nil => simp [insertByDesc]
  | cons y ys ih =>
    rcases List.pairwise_cons.mp h with ⟨hy, hys⟩
    by_cases hxy : key y ≤ key x
    · rw [insertByDesc, if_pos hxy]
      refine List.pairwise_cons.mpr ⟨?_, h⟩
      intro z hz
      rcases List.mem_cons.mp hz with hz | hz
      · simpa [hz] using hxy
      · exact (hy z hz).trans hxy
    · rw [insertByDesc, if_neg hxy]
      refine List.pairwise_cons.mpr ⟨?_, ih hys⟩
      intro z hz
      rcases mem_insertByDesc key x ys hz with hz' | hz'
      · simpa [hz'] using (le_of_not_le hxy)
      · exact hy z hz'

theorem sortByDesc_perm {α K : Type} [LinearOrder K] (key : α → K) :
    ∀ l : List α, List.Perm (sortByDesc key l) l := by
  intro l
  induction l with
  | nil => simp [sortByDesc]
  | cons x xs ih =>
    exact (insertByDesc_perm key x (sortByDesc key xs)).trans (ih.cons x)

theorem pairwise_sortByDesc {α K : Type} [LinearOrder K] (key : α → K) :
    ∀ l : List α, (sortByDesc key l).Pairwise (fun a b => key b ≤ key a) := by
  intro l
  induction l with
  | nil => simp [sortByDesc]
  | cons x xs ih => exact pairwise_insertByDesc key x ih

/-! ## Lemmas about the dedup merge -/

theorem mem_dedupInsert {new : Str} : ∀ {l : List Str} {z : Str},
    z ∈ dedupInsert new l → z ∈ l ∨ z = new := by
  intro l
  induction l with
  | nil => intro z hz; right; simpa [dedupInsert] using hz
  | cons x t ih =>
    intro z hz
    by_cases h1 : normStr new = normStr x
    · simp only [dedupInsert, if_pos h1] at hz; exact Or.inl hz
    · by_cases h2 : normStr new <:+: normStr x
      · simp only [dedupInsert, if_neg h1, if_pos h2] at hz; exact Or.inl hz
      · by_cases h3 : normStr x <:+: normStr new
        · simp only [dedupInsert, if_neg h1, if_neg h2, if_pos h3, List.mem_cons] at hz
          rcases hz with hz | hz
          · exact Or.inr hz
          · exact Or.inl (List.mem_cons_of_mem _ hz)
        · simp only [dedupInsert, if_neg h1, if_neg h2, if_neg h3, List.mem_cons] at hz
          rcases hz with hz | hz
          · exact Or.inl (by simp [hz])
          · rcases ih hz with hz' | hz'
            · exact Or.inl (List.mem_cons_of_mem _ hz')
            · exact Or.inr hz'

/-- Processing the same item twice in a row changes nothing: right after
`dedupInsert b`, the list contains an entry whose normalization contains
`normStr b`, scanned before anything that could replace it. -/
theorem dedupInsert_idem (b : Str) : ∀ l : List Str,
    dedupInsert b (dedupInsert b l) = dedupInsert b l := by
  intro l
  induction l with
  | nil => simp [dedupInsert]
  | cons x t ih =>
    by_cases h1 : normStr b = normStr x
    · simp [dedupInsert, h1]
    · by_cases h2 : normStr b <:+: normStr x
      · simp [dedupInsert, h1, h2]
      · by_cases h3 : normStr x <:+: normStr b
        · simp [dedupInsert, h1, h2, h3]
        · simp [dedupInsert, h1, h2, h3, ih]

/-- If processing `b` leaves the list unchanged, it still leaves it unchanged
after any further item `c` has been processed: a replacement can only grow an
entry (in the substring order), so by transitivity of the substring relation
the entry that absorbed `b` keeps absorbing it. -/
theorem dedupInsert_stable_of_stable (b c : Str) : ∀ l : List Str,
    dedupInsert b l = l → dedupInsert b (dedupInsert c l) = dedupInsert c l := by
  intro l
  induction l with
  | nil => intro h; exact absurd h (by simp [dedupInsert])
  | cons x t ih =>
    intro h
    by_cases hb1 : normStr b = normStr x
    · -- b is an exact duplicate of the head
      by_cases hc1 : normStr c = normStr x
      · simp [dedupInsert, hc1, hb1]
      · by_cases hc2 : normStr c <:+: normStr x
        · simp [dedupInsert, hc1, hc2, hb1]
        · by_cases hc3 : normStr x <:+: normStr c
          · -- head is replaced by c; b is still an infix of c
            have hbc : normStr b <:+: normStr c := hb1 ▸ hc3
            by_cases hbceq : normStr b = normStr c
            · simp [dedupInsert, hc1, hc2, hc3, hbceq]
            · simp [dedupInsert, hc1, hc2, hc3, hbceq, hbc]
          · simp [dedupInsert, hc1, hc2, hc3, hb1]
    · by_cases hb2 : normStr b <:+: normStr x
      · -- b is an infix of the head
        by_cases hc1 : normStr c = normStr x
        · simp [dedupInsert, hc1, hb1, hb2]
        · by_cases hc2 : normStr c <:+: normStr x
          · simp [dedupInsert, hc1, hc2, hb1, hb2]
          · by_cases hc3 : normStr x <:+: normStr c
            · have hbc : normStr b <:+: normStr c := hb2.trans hc3
              by_cases hbceq : normStr b = normStr c
              · simp [dedupInsert, hc1, hc2, hc3, hbceq]
              · simp [dedupInsert, hc1, hc2, hc3, hbceq, hbc]
            · simp [dedupInsert, hc1, hc2, hc3, hb1, hb2]
      · by_cases hb3 : normStr x <:+: normStr b
        · -- b would replace the head, contradicting `dedupInsert b l = l`
          rw [dedupInsert, if_neg hb1, if_neg hb2, if_pos hb3] at h
          have hbx : b = x := (List.cons.injEq _ _ _ _ ▸ h).1
          exact absurd (congrArg normStr hbx) hb1
        · -- the head is unrelated to b, so b was handled inside the tail
          rw [dedupInsert, if_neg hb1, if_neg hb2, if_neg hb3] at h
          have ht : dedupInsert b t = t := (List.cons.injEq _ _ _ _ ▸ h).2
          by_cases hc1 : normStr c = normStr x
          · simp [dedupInsert, hc1, hb1, hb2, hb3, ht]
          · by_cases hc2 : normStr c <:+: normStr x
            · simp [dedupInsert, hc1, hc2, hb1, hb2, hb3, ht]
            · by_cases hc3 : normStr x <:+: normStr c
              · -- head replaced by c; b cannot strictly contain c
                by_cases hbc1 : normStr b = normStr c
                · simp [dedupInsert, hc1, hc2, hc3, hbc1]
                · by_cases hbc2 : normStr b <:+: normStr c
                  · simp [dedupInsert, hc1, hc2, hc3, hbc1, hbc2]
                  · by_cases hbc3 : normStr c <:+: normStr b
                    · exact absurd (hc3.trans hbc3) hb3
                    · simp [dedupInsert, hc1, hc2, hc3, hbc1, hbc2, hbc3, ht]
              · simp [dedupInsert, hc1, hc2, hc3, hb1, hb2, hb3, ih ht]

/-- Stability propagates through a whole merge pass. -/
theorem dedupInsert_stable_of_dedupList (b : Str) : ∀ (C : List Str) (l : List Str),
    dedupInsert b l = l → dedupInsert b (dedupList l C) = dedupList l C := by
  intro C
  induction C with
  | nil => intro l h; simpa [dedupList] using h
  | cons c C' ih =>
    intro l h
    have step : dedupList l (c :: C') = dedupList (dedupInsert c l) C' := by
      simp [dedupList]
    rw [step]
    exact ih (dedupInsert c l) (dedupInsert_stable_of_stable b c l h)

/-- After merging `B` into `A`, re-processing any `b ∈ B` changes nothing. -/
theorem dedupInsert_of_mem_dedupList (b : Str) : ∀ (B A : List Str), b ∈ B →
    dedupInsert b (dedupList A B) = dedupList A B := by
  intro B
  induction B with
  | nil => intro A hb; exact absurd hb (List.not_mem_nil b)
  | cons b0 B' ih =>
    intro A hb
    have step : dedupList A (b0 :: B') = dedupList (dedupInsert b0 A) B' := by
      simp [dedupList]
    rcases List.mem_cons.mp hb with hb | hb
    · rw [step, hb]
      exact dedupInsert_stable_of_dedupList b0 B' (dedupInsert b0 A)
        (dedupInsert_idem b0 A)
    · rw [step]
      exact ih (dedupInsert b0 A) hb

/-- A merge pass whose every item is already absorbed is the identity. -/
theorem dedupList_eq_self (l : List Str) : ∀ B : List Str,
    (∀ b ∈ B, dedupInsert b l = l) → dedupList l B = l := by
  intro B
  induction B with
  | nil => intro _; simp [dedupList]
  | cons b B' ih =>
    intro h
    have step : dedupList l (b :: B') = dedupList (dedupInsert b l) B' := by
      simp [dedupList]
    rw [step, h b (List.mem_cons_self b B')]
    exact ih (fun b' hb' => h b' (List.mem_cons_of_mem b hb'))

/-- The positional invariant maintained by the dedup merge: no entry's
normalization is an infix of a *later* entry's normalization. -/
def NoEarlierInfix (l : List Str) : Prop :=
  l.Pairwise (fun u v => ¬ normStr u <:+: normStr v)

instance : DecidablePred NoEarlierInfix := fun l =>
  List.instDecidablePairwise l

theorem noEarlierInfix_dedupInsert (b : Str) : ∀ l : List Str,
    NoEarlierInfix l → NoEarlierInfix (dedupInsert b l) := by
  intro l
  induction l with
  | nil => intro _; simp [NoEarlierInfix, dedupInsert]
  | cons x t ih =>
    intro h
    rcases List.pairwise_cons.mp h with ⟨hx, ht⟩
    by_cases h1 : normStr b = normStr x
    · simpa [NoEarlierInfix, dedupInsert, h1] using h
    · by_cases h2 : normStr b <:+: normStr x
      · simpa [NoEarlierInfix, dedupInsert, h1, h2] using h
      · by_cases h3 : normStr x <:+: normStr b
        · -- the head is replaced by b; b cannot sink into a later entry,
          -- because the old head (an infix of b) could not either
          rw [NoEarlierInfix, dedupInsert, if_neg h1, if_neg h2, if_pos h3]
          refine List.pairwise_cons.mpr ⟨?_, ht⟩
          intro v hv hbv
          exact hx v hv (h3.trans hbv)
        · rw [NoEarlierInfix, dedupInsert, if_neg h1, if_neg h2, if_neg h3]
          refine List.pairwise_cons.mpr ⟨?_, ih ht⟩
          intro v hv
          rcases mem_dedupInsert hv with hv' | hv'
          · exact hx v hv'
          · exact hv' ▸ h3

/-! ## Lemmas about the budget pruner -/

theorem totalTokens_nil : totalTokens [] = 0 := rfl

theorem totalTokens_cons (m : Msg) (l : List Msg) :
    totalTokens (m :: l) = count_tokens m.content + totalTokens l := by
  simp [totalTokens]

theorem totalTokens_reverse (l : List Msg) : totalTokens l.reverse = totalTokens l := by
  simp [totalTokens, List.sum_reverse]

/-- The backward walk only ever takes a prefix of the reversed history. -/
theorem pruneWalk_prefix (budget : ℕ) : ∀ (rl : List Msg) (used : ℕ),
    pruneWalk budget rl used <+: rl := by
  intro rl
  induction rl with
  | nil => intro used; simp [pruneWalk]
  | cons m rest ih =>
    intro used
    by_cases h : budget < used + count_tokens m.content
    · simp [pruneWalk, h]
    · rw [pruneWalk, if_neg h]
      exact List.cons_prefix_cons.mpr ⟨rfl, ih (used + count_tokens m.content)⟩

/-- The walk never exceeds the remaining budget. -/
theorem pruneWalk_tokens_le (budget : ℕ) : ∀ (rl : List Msg) (used : ℕ),
    used ≤ budget → used + totalTokens (pruneWalk budget rl used) ≤ budget := by
  intro rl
  induction rl with
  | nil => intro used h; simpa [pruneWalk, totalTokens] using h
  | cons m rest ih =>
    intro used h
    by_cases hb : budget < used + count_tokens m.content
    · simpa [pruneWalk, hb, totalTokens] using h
    · rw [pruneWalk, if_neg hb, totalTokens_cons, ← Nat.add_assoc]
      exact ih (used + count_tokens m.content) (Nat.le_of_not_lt hb)

/-- The walk is the *maximal* fitting prefix: any prefix of the remaining
reversed history that fits the remaining budget is no longer than it. -/
theorem pruneWalk_maximal (budget : ℕ) : ∀ (rl p : List Msg) (used : ℕ),
    p <+: rl → used + totalTokens p ≤ budget →
    p.length ≤ (pruneWalk budget rl used).length := by
  intro rl
  induction rl with
  | nil =>
    intro p used hp _
    have hpnil : p = [] := List.prefix_nil.mp hp
    simp [hpnil, pruneWalk]
  | cons m rest ih =>
    intro p used hp hfit
    match p, hp with
    | [], _ => simp
    | m' :: p', hp =>
      have hm : m' = m := (List.cons_prefix_cons.mp hp).1
      have hp' : p' <+: rest := (List.cons_prefix_cons.mp hp).2
      subst hm
      have hfit' : used + count_tokens m'.content + totalTokens p' ≤ budget := by
        rw [totalTokens_cons] at hfit; omega
      have hb : ¬ budget < used + count_tokens m'.content := by omega
      rw [pruneWalk, if_neg hb]
      simpa using ih p' (used + count_tokens m'.content) hp' hfit'

/-! ## Lemmas about Python dicts and `update_profile` -/

theorem dictGet_dictSet_self {α : Type} : ∀ (d : PyDict α) (k : Str) (v : α),
    dictGet (dictSet d k v) k = some v := by
  intro d k v
  induction d with
  | nil => simp [dictSet, dictGet]
  | cons kv rest ih =>
    by_cases h : kv.1 = k
    · simp [dictSet, dictGet, h]
    · simp [dictSet, dictGet, h, ih]

theorem dictGet_dictSet_ne {α : Type} : ∀ (d : PyDict α) (k k' : Str) (v : α),
    k' ≠ k → dictGet (dictSet d k v) k' = dictGet d k' := by
  intro d k k' v hne
  induction d with
  | nil => simp [dictSet, dictGet, Ne.symm hne]
  | cons kv rest ih =>
    by_cases h : kv.1 = k
    · simp [dictSet, dictGet, h, Ne.symm hne]
    · by_cases h' : kv.1 = k'
      · simp [dictSet, dictGet, h, h', hne]
      · simp [dictSet, dictGet, h, h', ih]

/-- Every branch of the update loop assigns exactly the key of the current
update item, so lookups at other keys pass through unchanged. -/
theorem dictGet_updateStep_ne (p : Profile) (kv : Str × Value) (k : Str)
    (hk : k ≠ kv.1) : dictGet (updateStep p kv) k = dictGet p k := by
  rcases kv with ⟨key, v⟩
  simp only at hk
  cases v with
  | vDict d =>
    by_cases h : key = "preferences".toList
    · rw [updateStep, if_pos h]
      exact dictGet_dictSet_ne _ _ _ _ (h ▸ hk)
    · rw [updateStep, if_neg h]
      exact dictGet_dictSet_ne _ _ _ _ hk
  | vList l =>
    by_cases h : key = "constraints".toList
    · rw [updateStep, if_pos h]
      exact dictGet_dictSet_ne _ _ _ _ (h ▸ hk)
    · by_cases h' : key = "facts".toList
      · rw [updateStep, if_neg h, if_pos h']
        exact dictGet_dictSet_ne _ _ _ _ (h' ▸ hk)
      · rw [updateStep, if_neg h, if_neg h']
        exact dictGet_dictSet_ne _ _ _ _ hk
  | vNull => exact dictGet_dictSet_ne _ _ _ _ hk
  | vStr s => exact dictGet_dictSet_ne _ _ _ _ hk
  | vNum q => exact dictGet_dictSet_ne _ _ _ _ hk

theorem update_profile_cons (now : ℚ) (p : Profile) (kv : Str × Value)
    (us : List (Str × Value)) :
    update_profile now p (kv :: us) = update_profile now (updateStep p kv) us := by
  simp [update_profile]

/-- `dict.update` leaves keys it does not mention untouched. -/
theorem dictGet_prefsUpdate_ne (k0 : Str) : ∀ (value base : PyDict Str),
    k0 ∉ value.map Prod.fst →
    dictGet (prefsUpdate base value) k0 = dictGet base k0 := by
  intro value
  induction value with
  | nil => intro base _; simp [prefsUpdate]
  | cons kv rest ih =>
    intro base hk0
    simp only [List.map_cons, List.mem_cons, not_or] at hk0
    have step : prefsUpdate base (kv :: rest) = prefsUpdate (dictSet base kv.1 kv.2) rest := by
      simp [prefsUpdate]
    rw [step, ih (dictSet base kv.1 kv.2) (by simpa using hk0.2)]
    exact dictGet_dictSet_ne _ _ _ _ hk0.1

/-- On a list whose keys are all equal the stable sort is the identity:
ties keep the original order. -/
theorem sortByDesc_of_all_eq {α K : Type} [LinearOrder K] (key : α → K) :
    ∀ l : List α, (∀ a ∈ l, ∀ b ∈ l, key a = key b) → sortByDesc key l = l := by
  intro l
  induction l with
  | nil => intro _; simp [sortByDesc]
  | cons x xs ih =>
    intro h
    have hxs : sortByDesc key xs = xs :=
      ih (fun a ha b hb => h a (List.mem_cons_of_mem x ha) b (List.mem_cons_of_mem x hb))
    rw [sortByDesc, hxs]
    cases xs with
    | nil => simp [insertByDesc]
    | cons y ys =>
      have hle : key y ≤ key x :=
        le_of_eq (h y (by simp) x (by simp))
      simp [insertByDesc, hle]

theorem noEarlierInfix_dedupList (B : List Str) : ∀ l : List Str,
    NoEarlierInfix l → NoEarlierInfix (dedupList l B) := by
  induction B with
  | nil => intro l h; simpa [dedupList] using h
  | cons b B' ih =>
    intro l h
    have step : dedupList l (b :: B') = dedupList (dedupInsert b l) B' := by
      simp [dedupList]
    rw [step]
    exact ih (dedupInsert b l) (noEarlierInfix_dedupInsert b l h)

theorem add_message_summary (now : ℚ) (s : Session) (role content : Str) :
    (add_message now s role content).summary = s.summary := by
  rw [add_message]
  split <;> rfl

theorem add_message_messages (now : ℚ) (s : Session) (role content : Str) :
    (add_message now s role content).messages = s.messages ++ [Msg.mk role content now] := by
  rw [add_message]
  split <;> rfl

/-- Rounding an exact rational real recovers rational rounding. -/
theorem round4R_ratCast (q : ℚ) : round4R ((q : ℝ)) = round4 q := by
  have h : ((q : ℝ) * 10000) = (((q * 10000 : ℚ) : ℝ)) := by push_cast; ring
  rw [round4R, round4, h, Rat.round_cast]

/-! ## Reachable profile states -/

/-- Updates whose `constraints`/`facts` values are lists of strings — the
shape the extraction prompt asks for and `isinstance(value, list)` expects. -/
def ListTypedUpdates (us : List (Str × Value)) : Prop :=
  ∀ kv ∈ us, (kv.1 = "constraints".toList ∨ kv.1 = "facts".toList) →
    ∃ l, kv.2 = vList l

instance decExVList : (v : Value) → Decidable (∃ l, v = vList l)
  | vNull => isFalse (fun h => by rcases h with ⟨l, h⟩; cases h)
  | vStr _ => isFalse (fun h => by rcases h with ⟨l, h⟩; cases h)
  | vNum _ => isFalse (fun h => by rcases h with ⟨l, h⟩; cases h)
  | vDict _ => isFalse (fun h => by rcases h with ⟨l, h⟩; cases h)
  | vList l => isTrue ⟨l, rfl⟩

instance : DecidablePred ListTypedUpdates := fun us =>
  List.decidableBAll _ us

/-- The constraints and facts fields hold lists satisfying the positional
dedup invariant. -/
def ListsInv (p : Profile) : Prop :=
  (∃ lc, dictGet p ("constraints".toList) = some (vList lc) ∧ NoEarlierInfix lc) ∧
  (∃ lf, dictGet p ("facts".toList) = some (vList lf) ∧ NoEarlierInfix lf)

theorem listsInv_default (uid : Str) (now : ℚ) : ListsInv (default_profile uid now) := by
  refine ⟨⟨[], ?_, ?_⟩, ⟨[], ?_, ?_⟩⟩
  · rfl
  · simp [NoEarlierInfix]
  · rfl
  · simp [NoEarlierInfix]

theorem listsInv_updateStep (p : Profile) (kv : Str × Value)
    (hp : ListsInv p)
    (ht : (kv.1 = "constraints".toList ∨ kv.1 = "facts".toList) → ∃ l, kv.2 = vList l) :
    ListsInv (updateStep p kv) := by
  rcases kv with ⟨key, v⟩
  rcases hp with ⟨⟨lc, hc, hcInv⟩, ⟨lf, hf, hfInv⟩⟩
  by_cases hkc : key = "constraints".toList
  · rcases ht (Or.inl hkc) with ⟨l, rfl⟩
    subst hkc
    rw [updateStep, if_pos rfl]
    constructor
    · refine ⟨dedupList (getListD p ("constraints".toList)) l, ?_, ?_⟩
      · exact dictGet_dictSet_self _ _ _
      · have : getListD p ("constraints".toList) = lc := by
          rw [getListD, hc]
        rw [this]
        exact noEarlierInfix_dedupList l lc hcInv
    · refine ⟨lf, ?_, hfInv⟩
      rw [dictGet_dictSet_ne _ _ _ _ (by decide), hf]
  · by_cases hkf : key = "facts".toList
    · rcases ht (Or.inr hkf) with ⟨l, rfl⟩
      subst hkf
      rw [updateStep, if_neg (by decide), if_pos rfl]
      constructor
      · refine ⟨lc, ?_, hcInv⟩
        rw [dictGet_dictSet_ne _ _ _ _ (by decide), hc]
      · refine ⟨dedupList (getListD p ("facts".toList)) l, ?_, ?_⟩
        · exact dictGet_dictSet_self _ _ _
        · have : getListD p ("facts".toList) = lf := by
            rw [getListD, hf]
          rw [this]
          exact noEarlierInfix_dedupList l lf hfInv
    · constructor
      · refine ⟨lc, ?_, hcInv⟩
        rw [dictGet_updateStep_ne p (key, v) _ (fun h => hkc h.symm), hc]
      · refine ⟨lf, ?_, hfInv⟩
        rw [dictGet_updateStep_ne p (key, v) _ (fun h => hkf h.symm), hf]

theorem listsInv_update_profile (now : ℚ) : ∀ (us : List (Str × Value)) (p : Profile),
    ListsInv p → ListTypedUpdates us → ListsInv (update_profile now p us) := by
  intro us
  induction us with
  | nil =>
    intro p hp _
    rcases hp with ⟨⟨lc, hc, hcInv⟩, ⟨lf, hf, hfInv⟩⟩
    constructor
    · exact ⟨lc, by rw [update_profile, List.foldl_nil,
        dictGet_dictSet_ne _ _ _ _ (by decide), hc], hcInv⟩
    · exact ⟨lf, by rw [update_profile, List.foldl_nil,
        dictGet_dictSet_ne _ _ _ _ (by decide), hf], hfInv⟩
  | cons kv us' ih =>
    intro p hp htyped
    rw [update_profile_cons]
    refine ih (updateStep p kv) (listsInv_updateStep p kv hp ?_) ?_
    · exact htyped kv (List.mem_cons_self kv us')
    · exact fun kv' hkv' => htyped kv' (List.mem_cons_of_mem kv hkv')

/-- Applying a sequence of `update_profile` calls (each with its own
wall-clock time) starting from a given profile. -/
def applyUpdates (chain : List (ℚ × List (Str × Value))) (p : Profile) : Profile :=
  chain.foldl (fun acc u => update_profile u.1 acc u.2) p

theorem listsInv_applyUpdates : ∀ (chain : List (ℚ × List (Str × Value))) (p : Profile),
    ListsInv p → (∀ u ∈ chain, ListTypedUpdates u.2) → ListsInv (applyUpdates chain p) := by
  intro chain
  induction chain with
  | nil => intro p hp _; simpa [applyUpdates] using hp
  | cons u chain' ih =>
    intro p hp htyped
    have step : applyUpdates (u :: chain') p = applyUpdates chain' (update_profile u.1 p u.2) := by
      simp [applyUpdates]
    rw [step]
    exact ih (update_profile u.1 p u.2)
      (listsInv_update_profile u.1 u.2 p hp (htyped u (List.mem_cons_self u chain')))
      (fun u' hu' => htyped u' (List.mem_cons_of_mem u hu'))

/-! ## Concrete evaluations for the reranker -/

theorem round4_eq (q : ℚ) (z : ℤ)
    (h : (z:ℚ) ≤ q * 10000 + 1/2 ∧ q * 10000 + 1/2 < z + 1) :
    round4 q = (z:ℚ)/10000 := by
  rw [round4, round_eq]
  have hf : (⌊q * 10000 + 1/2⌋ : ℤ) = z := Int.floor_eq_iff.mpr (by exact_mod_cast h)
  rw [hf]

/-- A similarity value chosen so that the two candidates below tie exactly on
`combined_score` (and share their similarity) while having different
timestamps. -/
def simC6 : ℚ := 17918637/35840000

/-- A candidate 624 hours (13 half-lives) old at `now = 10⁷`. -/
def hitOlderC6 : Hit :=
  { distance := simC6, text := "db runs on gke".toList, mem_id := "m1".toList,
    timestamp := some 7753600 }

/-- A candidate 576 hours (12 half-lives) old at `now = 10⁷`. -/
def hitNewerC6 : Hit :=
  { distance := simC6, text := "db uses postgres".toList, mem_id := "m2".toList,
    timestamp := some 7926400 }

theorem recencyScore_624 : recencyScore 624 = ((1/8192 : ℚ) : ℝ) := by
  rw [recencyScore]
  rw [show (-(((624:ℚ)):ℝ)/48) = (((-13 : ℤ)):ℝ) by push_cast; norm_num]
  rw [Real.rpow_intCast]
  push_cast
  norm_num [zpow_neg]

theorem recencyScore_576 : recencyScore 576 = ((1/4096 : ℚ) : ℝ) := by
  rw [recencyScore]
  rw [show (-(((576:ℚ)):ℝ)/48) = (((-12 : ℤ)):ℝ) by push_cast; norm_num]
  rw [Real.rpow_intCast]
  push_cast
  norm_num [zpow_neg]

theorem scoreHit_older_eval :
    (scoreHit 10000000 (3/10) hitOlderC6).combined_score = 7/20 := by
  have h1 : ageHours 10000000 ((hitOlderC6.timestamp).getD 10000000) = 624 := by
    rw [hitOlderC6, ageHours]; norm_num
  have h2 : combinedScore (3/10) hitOlderC6.distance (((1/8192 : ℚ) : ℝ))
      = ((35001/100000 : ℚ) : ℝ) := by
    rw [combinedScore, show hitOlderC6.distance = simC6 from rfl, simC6]
    push_cast
    norm_num
  simp only [scoreHit, h1, recencyScore_624, h2, round4R_ratCast]
  rw [round4_eq (35001/100000) 3500 (by norm_num)]
  norm_num

theorem scoreHit_newer_eval :
    (scoreHit 10000000 (3/10) hitNewerC6).combined_score = 7/20 := by
  have h1 : ageHours 10000000 ((hitNewerC6.timestamp).getD 10000000) = 576 := by
    rw [hitNewerC6, ageHours]; norm_num
  have h2 : combinedScore (3/10) hitNewerC6.distance (((1/4096 : ℚ) : ℝ))
      = ((17922387/51200000 : ℚ) : ℝ) := by
    rw [combinedScore, show hitNewerC6.distance = simC6 from rfl, simC6]
    push_cast
    norm_num
  simp only [scoreHit, h1, recencyScore_576, h2, round4R_ratCast]
  rw [round4_eq (17922387/51200000) 3500 (by norm_num)]
  norm_num

/-- The ranking order asserted by the specification: descending
`combined_score`, ties broken by descending similarity, then by descending
timestamp. -/
def specRankLE (a b : ScoredMem) : Prop :=
  b.combined_score < a.combined_score ∨
    (b.combined_score = a.combined_score ∧
      (b.similarity < a.similarity ∨
        (b.similarity = a.similarity ∧ b.timestamp ≤ a.timestamp)))

/-! ## Characterization of `prune_messages_to_budget` -/

theorem totalTokens_append (l1 l2 : List Msg) :
    totalTokens (l1 ++ l2) = totalTokens l1 + totalTokens l2 := by
  simp [totalTokens]

theorem prune_fits (messages : List Msg) (s : Option Str) (b : ℕ) (hbne : b ≠ 0)
    (hfits : totalTokens messages ≤ b) :
    prune_messages_to_budget messages s (some b)
      = (messages,
        { original_messages := messages.length
          original_tokens := totalTokens messages
          budget := b
          pruned := false
          strategy := "none".toList
          final_messages := messages.length
          final_tokens := totalTokens messages
          dropped_messages := none }) := by
  rw [prune_messages_to_budget]
  simp only [if_neg hbne]
  rw [if_pos hfits]

theorem prune_over (messages : List Msg) (s : Option Str) (b : ℕ) (hbne : b ≠ 0)
    (hover : ¬ totalTokens messages ≤ b) :
    prune_messages_to_budget messages s (some b)
      = ((pruneWalk b messages.reverse 0).reverse,
        { original_messages := messages.length
          original_tokens := totalTokens messages
          budget := b
          pruned := true
          strategy := "keep_recent_with_summary".toList
          final_messages := (pruneWalk b messages.reverse 0).reverse.length
          final_tokens := totalTokens (pruneWalk b messages.reverse 0).reverse
          dropped_messages := some (messages.length - (pruneWalk b messages.reverse 0).reverse.length) }) := by
  rw [prune_messages_to_budget]
  simp only [if_neg hbne]
  rw [if_neg hover]

/-! ## Claims C1, C7 — the budget pruner -/

/-- C1 (amended): for every message sequence and positive token budget, the
kept set's total approximate token count never exceeds the budget — including
the edge case: when the single most-recent message alone exceeds the budget,
`prune_messages_to_budget` returns the **empty** list (the oversized message
is dropped whole, not kept alone and not split). -/
theorem C1_prune_total_le_budget (messages : List Msg) (b : ℕ) (hb : 0 < b) :
    totalTokens (prune_messages_to_budget messages none (some b)).1 ≤ b ∧
    (∀ (front : List Msg) (m : Msg), messages = front ++ [m] →
      b < count_tokens m.content →
      (prune_messages_to_budget messages none (some b)).1 = []) := by
  have hbne : b ≠ 0 := Nat.pos_iff_ne_zero.mp hb
  by_cases hfits : totalTokens messages ≤ b
  · refine ⟨?_, ?_⟩
    · rw [prune_fits messages none b hbne hfits]
      exact hfits
    · intro front m hm hover
      exfalso
      rw [hm, totalTokens_append, totalTokens_cons, totalTokens_nil] at hfits
      omega
  · refine ⟨?_, ?_⟩
    · rw [prune_over messages none b hbne hfits]
      have h := pruneWalk_tokens_le b messages.reverse 0 (Nat.zero_le b)
      show totalTokens (pruneWalk b messages.reverse 0).reverse ≤ b
      rw [totalTokens_reverse]
      omega
    · intro front m hm hover
      rw [prune_over messages none b hbne hfits]
      have hrev : messages.reverse = m :: front.reverse := by rw [hm]; simp
      show (pruneWalk b messages.reverse 0).reverse = []
      rw [hrev, pruneWalk, if_pos (by omega)]
      rfl

/-- Witness for C1: concrete instance of the amended bound and edge case. -/
theorem C1_prune_total_le_budget_witness :
    (0:ℕ) < 1 ∧
    totalTokens (prune_messages_to_budget
      [Msg.mk ("user".toList) ("aaaaaaaa".toList) 0] none (some 1)).1 ≤ 1 ∧
    (prune_messages_to_budget
      [Msg.mk ("user".toList) ("aaaaaaaa".toList) 0] none (some 1)).1 = [] :=
  ⟨by decide,
   (C1_prune_total_le_budget [Msg.mk ("user".toList) ("aaaaaaaa".toList) 0] 1 (by decide)).1,
   (C1_prune_total_le_budget [Msg.mk ("user".toList) ("aaaaaaaa".toList) 0] 1 (by decide)).2
     [] (Msg.mk ("user".toList) ("aaaaaaaa".toList) 0) rfl (by decide)⟩

/-- C1 counterexample: a single 8-character message is 2 tokens, over a
budget of 1; the claim says exactly that message is returned, but the code
returns the empty list. -/
theorem C1_counterexample :
    1 < count_tokens ("aaaaaaaa".toList) ∧
    (prune_messages_to_budget
      [Msg.mk ("user".toList) ("aaaaaaaa".toList) 0] none (some 1)).1 = [] ∧
    (prune_messages_to_budget
      [Msg.mk ("user".toList) ("aaaaaaaa".toList) 0] none (some 1)).1
      ≠ [Msg.mk ("user".toList) ("aaaaaaaa".toList) 0] := by decide

/-- C7 (amended): the pruner keeps a contiguous suffix — the maximal suffix
fitting the budget, messages dropped whole; a fully fitting history is
returned unmodified with strategy `"none"`, and otherwise the reported
strategy is `"keep_recent_with_summary"` (not `"keep_recent"`). -/
theorem C7_prune_maximal_suffix (messages : List Msg) (b : ℕ) (hb : 0 < b) :
    (prune_messages_to_budget messages none (some b)).1 <:+ messages ∧
    (totalTokens messages ≤ b →
      (prune_messages_to_budget messages none (some b)).1 = messages ∧
      (prune_messages_to_budget messages none (some b)).2.strategy = "none".toList ∧
      (prune_messages_to_budget messages none (some b)).2.pruned = false) ∧
    (¬ totalTokens messages ≤ b →
      (prune_messages_to_budget messages none (some b)).2.strategy
        = "keep_recent_with_summary".toList ∧
      (prune_messages_to_budget messages none (some b)).2.pruned = true ∧
      totalTokens (prune_messages_to_budget messages none (some b)).1 ≤ b ∧
      (∀ s : List Msg, s <:+ messages → totalTokens s ≤ b →
        s.length ≤ (prune_messages_to_budget messages none (some b)).1.length)) := by
  have hbne : b ≠ 0 := Nat.pos_iff_ne_zero.mp hb
  by_cases hfits : totalTokens messages ≤ b
  · rw [prune_fits messages none b hbne hfits]
    exact ⟨List.suffix_refl messages, fun _ => ⟨rfl, rfl, rfl⟩, fun h => absurd hfits h⟩
  · rw [prune_over messages none b hbne hfits]
    refine ⟨?_, fun h => absurd h hfits, fun _ => ⟨rfl, rfl, ?_, ?_⟩⟩
    · have hw : pruneWalk b messages.reverse 0 <+: messages.reverse :=
        pruneWalk_prefix b messages.reverse 0
      have := List.reverse_suffix.mpr hw
      rwa [List.reverse_reverse] at this
    · show totalTokens (pruneWalk b messages.reverse 0).reverse ≤ b
      have h := pruneWalk_tokens_le b messages.reverse 0 (Nat.zero_le b)
      rw [totalTokens_reverse]
      omega
    · intro s hs hsfit
      have hsrev : s.reverse <+: messages.reverse := List.reverse_prefix.mpr hs
      have := pruneWalk_maximal b messages.reverse s.reverse 0 hsrev
        (by rw [totalTokens_reverse]; omega)
      simpa using this

/-- Witness for C7: concrete two-message history over budget, pruned to the
one-message maximal suffix. -/
theorem C7_prune_maximal_suffix_witness :
    (prune_messages_to_budget
      [Msg.mk ("user".toList) ("aaaa".toList) 0,
       Msg.mk ("assistant".toList) ("bbbb".toList) 1] none (some 1)).1
      <:+ [Msg.mk ("user".toList) ("aaaa".toList) 0,
           Msg.mk ("assistant".toList) ("bbbb".toList) 1] ∧
    (prune_messages_to_budget
      [Msg.mk ("user".toList) ("aaaa".toList) 0,
       Msg.mk ("assistant".toList) ("bbbb".toList) 1] none (some 1)).2.strategy
      = "keep_recent_with_summary".toList :=
  ⟨(C7_prune_maximal_suffix _ 1 (by decide)).1,
   ((C7_prune_maximal_suffix
      [Msg.mk ("user".toList) ("aaaa".toList) 0,
       Msg.mk ("assistant".toList) ("bbbb".toList) 1] 1 (by decide)).2.2 (by decide)).1⟩

/-- C7 counterexample: on an over-budget history the reported strategy is
`"keep_recent_with_summary"`, not `"keep_recent"` as claimed. -/
theorem C7_counterexample :
    (prune_messages_to_budget
      [Msg.mk ("user".toList) ("aaaa".toList) 0,
       Msg.mk ("assistant".toList) ("bbbb".toList) 1] none (some 1)).2.strategy
      = "keep_recent_with_summary".toList ∧
    ("keep_recent_with_summary".toList : Str) ≠ "keep_recent".toList := by decide

/-! ## Claim C9 — the summarization trigger -/

/-- C9: `should_summarize` is true exactly when the message count reaches the
trigger threshold, whose default value is 6; in particular it is false for a
5-message list and true for a 6-message list. -/
theorem C9_should_summarize_iff :
    (∀ messages : List Msg, should_summarize messages = true ↔
      SUMMARY_TRIGGER_MESSAGES ≤ messages.length) ∧
    SUMMARY_TRIGGER_MESSAGES = 6 ∧
    should_summarize (List.replicate 5 (Msg.mk ("user".toList) ("hi".toList) 0)) = false ∧
    should_summarize (List.replicate 6 (Msg.mk ("user".toList) ("hi".toList) 0)) = true := by
  refine ⟨?_, rfl, by decide, by decide⟩
  intro messages
  simp [should_summarize]

/-! ## Claims C3, C5, C4 — the dedup merge -/

theorem dedupInsert_append_of_unrelated (new : Str) : ∀ existing : List Str,
    (∀ old ∈ existing, ¬ normStr new <:+: normStr old ∧ ¬ normStr old <:+: normStr new) →
    dedupInsert new existing = existing ++ [new] := by
  intro existing
  induction existing with
  | nil => intro _; simp [dedupInsert]
  | cons x t ih =>
    intro h
    have hx := h x (List.mem_cons_self x t)
    have h1 : ¬ normStr new = normStr x := fun he => hx.1 (he ▸ List.infix_refl _)
    rw [dedupInsert, if_neg h1, if_neg hx.1, if_neg hx.2,
      ih (fun old ho => h old (List.mem_cons_of_mem x ho))]
    rfl

theorem dedupInsert_drop_at_first (new old : Str) : ∀ (l1 l2 : List Str),
    (∀ x ∈ l1, ¬ normStr new <:+: normStr x ∧ ¬ normStr x <:+: normStr new) →
    normStr new <:+: normStr old →
    dedupInsert new (l1 ++ old :: l2) = l1 ++ old :: l2 := by
  intro l1
  induction l1 with
  | nil =>
    intro l2 _ hdrop
    by_cases he : normStr new = normStr old
    · simp [dedupInsert, he]
    · simp [dedupInsert, he, hdrop]
  | cons x t ih =>
    intro l2 h hdrop
    have hx := h x (List.mem_cons_self x t)
    have h1 : ¬ normStr new = normStr x := fun he => hx.1 (he ▸ List.infix_refl _)
    rw [List.cons_append, dedupInsert, if_neg h1, if_neg hx.1, if_neg hx.2,
      ih l2 (fun y hy => h y (List.mem_cons_of_mem x hy)) hdrop]

theorem dedupInsert_replace_at_first (new old : Str) : ∀ (l1 l2 : List Str),
    (∀ x ∈ l1, ¬ normStr new <:+: normStr x ∧ ¬ normStr x <:+: normStr new) →
    normStr old <:+: normStr new → normStr new ≠ normStr old →
    dedupInsert new (l1 ++ old :: l2) = l1 ++ new :: l2 := by
  intro l1
  induction l1 with
  | nil =>
    intro l2 _ hrep hne
    have h2 : ¬ normStr new <:+: normStr old := fun hcon =>
      hne (hcon.eq_of_length (Nat.le_antisymm hcon.length_le hrep.length_le))
    simp [dedupInsert, hne, h2, hrep]
  | cons x t ih =>
    intro l2 h hrep hne
    have hx := h x (List.mem_cons_self x t)
    have h1 : ¬ normStr new = normStr x := fun he => hx.1 (he ▸ List.infix_refl _)
    rw [List.cons_append, dedupInsert, if_neg h1, if_neg hx.1, if_neg hx.2,
      ih l2 (fun y hy => h y (List.mem_cons_of_mem x hy)) hrep hne]
    rfl

/-- C3: the dedup merge processes incoming items one at a time against the
current result list; for each item, the first normalized-related entry decides:
an exact match or containing entry drops the incoming item, a contained entry
is replaced in place by the incoming text, and an item unrelated to every
entry is appended at the end — positions of other entries are untouched in
every case.  In particular the Kubernetes example replaces in place. -/
theorem C3_dedup_merge_rules :
    (∀ existing : List Str, dedupList existing ([] : List Str) = existing) ∧
    (∀ (existing : List Str) (new : Str) (rest : List Str),
      dedupList existing (new :: rest) = dedupList (dedupInsert new existing) rest) ∧
    (∀ (existing : List Str) (new : Str),
      (∀ old ∈ existing, ¬ normStr new <:+: normStr old ∧ ¬ normStr old <:+: normStr new) →
      dedupInsert new existing = existing ++ [new]) ∧
    (∀ (l1 l2 : List Str) (old new : Str),
      (∀ x ∈ l1, ¬ normStr new <:+: normStr x ∧ ¬ normStr x <:+: normStr new) →
      normStr new <:+: normStr old →
      dedupInsert new (l1 ++ old :: l2) = l1 ++ old :: l2) ∧
    (∀ (l1 l2 : List Str) (old new : Str),
      (∀ x ∈ l1, ¬ normStr new <:+: normStr x ∧ ¬ normStr x <:+: normStr new) →
      normStr old <:+: normStr new → normStr new ≠ normStr old →
      dedupInsert new (l1 ++ old :: l2) = l1 ++ new :: l2) ∧
    dedupList ["uses Kubernetes".toList] ["uses Kubernetes on GKE".toList]
      = ["uses Kubernetes on GKE".toList] := by
  refine ⟨fun existing => rfl, fun existing new rest => by simp [dedupList],
    fun existing new h => dedupInsert_append_of_unrelated new existing h,
    fun l1 l2 old new h h' => dedupInsert_drop_at_first new old l1 l2 h h',
    fun l1 l2 old new h h' h'' => dedupInsert_replace_at_first new old l1 l2 h h' h'',
    by decide⟩

/-- Witness for C3: the replace rule applied at a concrete input. -/
theorem C3_dedup_merge_rules_witness :
    dedupInsert ("uses Kubernetes on GKE".toList) ([] ++ "uses Kubernetes".toList :: [])
      = [] ++ "uses Kubernetes on GKE".toList :: [] :=
  C3_dedup_merge_rules.2.2.2.2.1 [] [] ("uses Kubernetes".toList)
    ("uses Kubernetes on GKE".toList) (by decide) (by decide) (by decide)

/-- C5: the dedup merge is idempotent in its incoming argument:
`merge(merge(A, B), B) = merge(A, B)`. -/
theorem C5_dedup_merge_idempotent (A B : List Str) :
    dedupList (dedupList A B) B = dedupList A B :=
  dedupList_eq_self (dedupList A B) B
    (fun b hb => dedupInsert_of_mem_dedupList b B A hb)

/-- C4 counterexample: starting from the empty default profile, three
well-formed `update_profile` calls reach a constraints list
`["db on k8s", "k8s"]` in which `"k8s"` is a case-insensitive substring of
`"db on k8s"` — the no-mutual-substring invariant does not hold. -/
theorem C4_counterexample :
    getListD (update_profile 2 (update_profile 1 (update_profile 0
        (default_profile ("u".toList) 0)
        [("constraints".toList, vList ["db".toList])])
        [("constraints".toList, vList ["k8s".toList])])
        [("constraints".toList, vList ["db on k8s".toList])]) ("constraints".toList)
      = ["db on k8s".toList, "k8s".toList] ∧
    normStr ("k8s".toList) <:+: normStr ("db on k8s".toList) ∧
    ("k8s".toList : Str) ≠ "db on k8s".toList := by decide

/-- C4 (amended): the dedup merge does *not* guarantee the two-sided
no-mutual-substring invariant (a later entry may be a substring of an earlier
one after an in-place replacement); what every reachable profile state
satisfies — for update sequences whose constraints/facts values are lists of
strings — is the positional invariant: no entry's normalization is a
substring of any *later* entry's normalization (which in particular rules out
normalized duplicates). -/
theorem C4_no_earlier_infix_invariant (chain : List (ℚ × List (Str × Value)))
    (uid : Str) (t0 : ℚ)
    (htyped : ∀ u ∈ chain, ListTypedUpdates u.2) :
    (∃ lc, dictGet (applyUpdates chain (default_profile uid t0)) ("constraints".toList)
        = some (vList lc) ∧ NoEarlierInfix lc) ∧
    (∃ lf, dictGet (applyUpdates chain (default_profile uid t0)) ("facts".toList)
        = some (vList lf) ∧ NoEarlierInfix lf) :=
  listsInv_applyUpdates chain (default_profile uid t0) (listsInv_default uid t0) htyped

/-- Witness for C4: the positional invariant evaluated on the concrete
counterexample chain. -/
theorem C4_no_earlier_infix_invariant_witness :
    (∃ lc, dictGet (applyUpdates
        [(0, [("constraints".toList, vList ["db".toList])]),
         (1, [("constraints".toList, vList ["k8s".toList])]),
         (2, [("constraints".toList, vList ["db on k8s".toList])])]
        (default_profile ("u".toList) 0)) ("constraints".toList)
        = some (vList lc) ∧ NoEarlierInfix lc) ∧
    (∃ lf, dictGet (applyUpdates
        [(0, [("constraints".toList, vList ["db".toList])]),
         (1, [("constraints".toList, vList ["k8s".toList])]),
         (2, [("constraints".toList, vList ["db on k8s".toList])])]
        (default_profile ("u".toList) 0)) ("facts".toList)
        = some (vList lf) ∧ NoEarlierInfix lf) :=
  C4_no_earlier_infix_invariant
    [(0, [("constraints".toList, vList ["db".toList])]),
     (1, [("constraints".toList, vList ["k8s".toList])]),
     (2, [("constraints".toList, vList ["db on k8s".toList])])]
    ("u".toList) 0 (by decide)

/-! ## Claim C10 — frame property of `update_profile` -/

theorem update_profile_frame_get (now : ℚ) (k : Str) :
    ∀ (updates : List (Str × Value)) (p : Profile),
    k ∉ updates.map Prod.fst → k ≠ "updated_at".toList →
    dictGet (update_profile now p updates) k = dictGet p k := by
  intro updates
  induction updates with
  | nil =>
    intro p _ hk2
    rw [update_profile, List.foldl_nil]
    exact dictGet_dictSet_ne _ _ _ _ hk2
  | cons kv us' ih =>
    intro p hk1 hk2
    simp only [List.map_cons, List.mem_cons, not_or] at hk1
    rw [update_profile_cons, ih (updateStep p kv) hk1.2 hk2]
    exact dictGet_updateStep_ne p kv k hk1.1

theorem update_profile_prefs_retained (d : PyDict Str) (k0 : Str)
    (hk0 : k0 ∉ d.map Prod.fst) :
    ∀ (us : List (Str × Value)) (p : Profile) (d0 : PyDict Str),
    (∀ kv ∈ us, kv.1 = "preferences".toList → kv.2 = vDict d) →
    dictGet p ("preferences".toList) = some (vDict d0) →
    ∃ d1, dictGet (us.foldl updateStep p) ("preferences".toList) = some (vDict d1) ∧
      dictGet d1 k0 = dictGet d0 k0 := by
  intro us
  induction us with
  | nil =>
    intro p d0 _ hp
    exact ⟨d0, by simpa using hp, rfl⟩
  | cons kv us' ih =>
    intro p d0 hall hp
    rw [List.foldl_cons]
    by_cases hk : kv.1 = "preferences".toList
    · have hv : kv.2 = vDict d := hall kv (List.mem_cons_self _ _) hk
      have hstep : updateStep p kv = dictSet p ("preferences".toList)
          (vDict (prefsUpdate (getPrefsD p) d)) := by
        rcases kv with ⟨key, v⟩
        simp only at hk hv
        subst hv
        rw [updateStep, if_pos hk]
      have hpd : getPrefsD p = d0 := by rw [getPrefsD, hp]
      have hget : dictGet (dictSet p ("preferences".toList)
          (vDict (prefsUpdate d0 d))) ("preferences".toList)
          = some (vDict (prefsUpdate d0 d)) := dictGet_dictSet_self _ _ _
      rw [hstep, hpd]
      obtain ⟨d1, h1, h2⟩ := ih (dictSet p ("preferences".toList)
          (vDict (prefsUpdate d0 d))) (prefsUpdate d0 d)
        (fun kv' h' hk' => hall kv' (List.mem_cons_of_mem _ h') hk') hget
      exact ⟨d1, h1, by rw [h2, dictGet_prefsUpdate_ne k0 d d0 hk0]⟩
    · have hthis : dictGet (updateStep p kv) ("preferences".toList) = some (vDict d0) := by
        rw [dictGet_updateStep_ne p kv _ (fun h => hk h.symm), hp]
      exact ih (updateStep p kv) d0
        (fun kv' h' => hall kv' (List.mem_cons_of_mem _ h')) hthis

/-- C10: `update_profile` is frame-preserving: a top-level key that does not
occur in the updates (other than `updated_at`, which is always restamped) is
left unchanged, and a preferences merge only adds or overwrites the supplied
preference keys — existing preference keys absent from the update keep their
previous values. -/
theorem C10_update_profile_frame :
    (∀ (now : ℚ) (p : Profile) (updates : List (Str × Value)) (k : Str),
      k ∉ updates.map Prod.fst → k ≠ "updated_at".toList →
      dictGet (update_profile now p updates) k = dictGet p k) ∧
    (∀ (now : ℚ) (p : Profile) (updates : List (Str × Value))
       (d d0 : PyDict Str) (k0 : Str),
      (∀ kv ∈ updates, kv.1 = "preferences".toList → kv.2 = vDict d) →
      dictGet p ("preferences".toList) = some (vDict d0) →
      k0 ∉ d.map Prod.fst →
      ∃ d1, dictGet (update_profile now p updates) ("preferences".toList)
          = some (vDict d1) ∧
        dictGet d1 k0 = dictGet d0 k0) := by
  constructor
  · intro now p updates k h1 h2
    exact update_profile_frame_get now k updates p h1 h2
  · intro now p updates d d0 k0 hall hp hk0
    obtain ⟨d1, h1, h2⟩ := update_profile_prefs_retained d k0 hk0 updates p d0 hall hp
    refine ⟨d1, ?_, h2⟩
    rw [update_profile, dictGet_dictSet_ne _ _ _ _ (by decide)]
    exact h1

/-- Witness for C10: a concrete update touching `name` and `preferences`
leaves `created_at` and the untouched preference key alone. -/
theorem C10_update_profile_frame_witness :
    dictGet (update_profile 9 (default_profile ("u".toList) 3)
        [("name".toList, vStr ("Sam".toList)),
         ("preferences".toList, vDict [("iac".toList, "terraform".toList)])])
        ("created_at".toList)
      = dictGet (default_profile ("u".toList) 3) ("created_at".toList) ∧
    (∃ d1, dictGet (update_profile 9 (default_profile ("u".toList) 3)
        [("name".toList, vStr ("Sam".toList)),
         ("preferences".toList, vDict [("iac".toList, "terraform".toList)])])
        ("preferences".toList) = some (vDict d1) ∧
      dictGet d1 ("region".toList) = dictGet ([] : PyDict Str) ("region".toList)) :=
  ⟨C10_update_profile_frame.1 9 (default_profile ("u".toList) 3)
      [("name".toList, vStr ("Sam".toList)),
       ("preferences".toList, vDict [("iac".toList, "terraform".toList)])]
      ("created_at".toList) (by decide) (by decide),
   C10_update_profile_frame.2 9 (default_profile ("u".toList) 3)
      [("name".toList, vStr ("Sam".toList)),
       ("preferences".toList, vDict [("iac".toList, "terraform".toList)])]
      [("iac".toList, "terraform".toList)] [] ("region".toList)
      (by decide) (by decide) (by decide)⟩

/-! ## Claim C8 — the skill matcher -/

/-- `## rollback_runbook — Rollback Runbook` with keyword `rollback`. -/
def rollbackSkill : SkillSummary :=
  { id := "rollback_runbook".toList, name := "Rollback Runbook".toList,
    summary := "Standard deployment rollback procedure".toList,
    file_path := "./skills_registry/rollback_runbook.md".toList,
    keywords := ["rollback".toList] }

/-- A skill none of whose keywords appear in the queries below. -/
def capacitySkill : SkillSummary :=
  { id := "capacity_planning".toList, name := "Capacity Planning".toList,
    summary := "Sizing and autoscaling guidance".toList,
    file_path := "./skills_registry/capacity_planning.md".toList,
    keywords := ["capacity".toList, "autoscaling".toList] }

theorem mem_scored_filterMap (index : List SkillSummary) (ql : Str)
    (p : ℕ × SkillSummary)
    (hp : p ∈ index.filterMap (fun skill =>
      if 0 < skillScore ql skill then some (skillScore ql skill, skill) else none)) :
    p.2 ∈ index ∧ p.1 = skillScore ql p.2 ∧ 0 < p.1 := by
  rcases List.mem_filterMap.mp hp with ⟨skill, hskill, hif⟩
  by_cases h : 0 < skillScore ql skill
  · rw [if_pos h] at hif
    cases hif
    exact ⟨hskill, rfl, h⟩
  · rw [if_neg h] at hif
    cases hif

/-- C8 (amended): each skill's score is the number of its (lower-cased)
keywords occurring in the lower-cased query, plus 2 if the lower-cased skill
name occurs in it; exactly the skills with positive score are returned, in
descending score order (the sort is stable).  The claim's own example query
contains "roll back" with a space, so the keyword "rollback" does *not* hit;
on the corrected query "how do I use the rollback runbook" the Rollback
Runbook skill scores 3 (keyword + name bonus) and is returned alone, ahead of
the keyword-less Capacity Planning skill, which is not returned at all. -/
theorem C8_match_skills_scoring :
    (∀ (index : List SkillSummary) (query : Str) (s : SkillSummary),
      s ∈ match_skills index query →
      s ∈ index ∧ 0 < skillScore (lowerStr query) s) ∧
    (∀ (index : List SkillSummary) (query : Str) (s : SkillSummary),
      s ∈ index → 0 < skillScore (lowerStr query) s →
      s ∈ match_skills index query) ∧
    (∀ (index : List SkillSummary) (query : Str),
      (match_skills index query).Pairwise
        (fun a b => skillScore (lowerStr query) b ≤ skillScore (lowerStr query) a)) ∧
    skillScore (lowerStr ("how do I use the rollback runbook".toList)) rollbackSkill = 3 ∧
    match_skills [rollbackSkill, capacitySkill]
      ("how do I use the rollback runbook".toList) = [rollbackSkill] := by
  refine ⟨?_, ?_, ?_, by decide, by decide⟩
  · intro index query s hs
    rcases List.mem_map.mp hs with ⟨p, hp, hps⟩
    have hp' := (sortByDesc_perm (fun x : ℕ × SkillSummary => x.1) _).mem_iff.mp hp
    have hfacts := mem_scored_filterMap index (lowerStr query) p hp'
    exact ⟨hps ▸ hfacts.1, by rw [← hps, ← hfacts.2.1]; exact hfacts.2.2⟩
  · intro index query s hs hpos
    have hmem : (skillScore (lowerStr query) s, s) ∈ index.filterMap (fun skill =>
        if 0 < skillScore (lowerStr query) skill
        then some (skillScore (lowerStr query) skill, skill) else none) :=
      List.mem_filterMap.mpr ⟨s, hs, by rw [if_pos hpos]⟩
    have hsort := (sortByDesc_perm (fun x : ℕ × SkillSummary => x.1) _).mem_iff.mpr hmem
    exact List.mem_map.mpr ⟨(skillScore (lowerStr query) s, s), hsort, rfl⟩
  · intro index query
    rw [show match_skills index query = (sortByDesc (fun x : ℕ × SkillSummary => x.1)
        (index.filterMap (fun skill =>
          if 0 < skillScore (lowerStr query) skill
          then some (skillScore (lowerStr query) skill, skill) else none))).map
        (fun x => x.2) from rfl]
    rw [List.pairwise_map]
    refine List.Pairwise.imp_of_mem ?_ (pairwise_sortByDesc (fun x : ℕ × SkillSummary => x.1) _)
    intro a b ha hb hab
    have ha' := mem_scored_filterMap index (lowerStr query) a
      ((sortByDesc_perm (fun x : ℕ × SkillSummary => x.1) _).mem_iff.mp ha)
    have hb' := mem_scored_filterMap index (lowerStr query) b
      ((sortByDesc_perm (fun x : ℕ × SkillSummary => x.1) _).mem_iff.mp hb)
    rw [← ha'.2.1, ← hb'.2.1]
    exact hab

/-- Witness for C8: the soundness direction applied at the concrete index and
corrected query. -/
theorem C8_match_skills_scoring_witness :
    rollbackSkill ∈ [rollbackSkill, capacitySkill] ∧
    0 < skillScore (lowerStr ("how do I use the rollback runbook".toList)) rollbackSkill :=
  C8_match_skills_scoring.1 [rollbackSkill, capacitySkill]
    ("how do I use the rollback runbook".toList) rollbackSkill (by decide)

/-- C8 counterexample: on the claim's query `"how do I roll back a
deployment"` (note the space in "roll back"), the Rollback Runbook skill
scores 0 — no keyword is a substring of the query — so `match_skills` returns
the empty list; the skill neither scores ≥ 3 nor ranks anywhere. -/
theorem C8_counterexample :
    skillScore (lowerStr ("how do I roll back a deployment".toList)) rollbackSkill = 0 ∧
    match_skills [rollbackSkill, capacitySkill]
      ("how do I roll back a deployment".toList) = [] := by decide

/-! ## Claim C6 — the reranker's ordering -/

/-- C6 counterexample: two candidates with the *same* similarity whose
combined scores round to the same 4-decimal value; the newer one has the
larger timestamp, so the spec's tie-break demands it first, but the code's
single-key stable sort keeps the older candidate in front — the output
violates the claimed ordering. -/
theorem C6_counterexample :
    ¬ (retrieve_memories 10000000 [hitOlderC6, hitNewerC6] 5 (3/10)).Pairwise specRankLE := by
  have ha := scoreHit_older_eval
  have hb := scoreHit_newer_eval
  have hout : retrieve_memories 10000000 [hitOlderC6, hitNewerC6] 5 (3/10)
      = [scoreHit 10000000 (3/10) hitOlderC6, scoreHit 10000000 (3/10) hitNewerC6] := by
    rw [retrieve_memories, if_neg (by simp)]
    simp only [List.map]
    rw [sortByDesc, sortByDesc, sortByDesc]
    rw [show insertByDesc (fun s => s.combined_score)
        (scoreHit 10000000 (3/10) hitNewerC6) []
        = [scoreHit 10000000 (3/10) hitNewerC6] from rfl]
    rw [insertByDesc, if_pos (by rw [ha, hb])]
    rfl
  rw [hout]
  intro hpair
  have h := (List.pairwise_cons.mp hpair).1 (scoreHit 10000000 (3/10) hitNewerC6) (by simp)
  have hsim : (scoreHit 10000000 (3/10) hitNewerC6).similarity
      = (scoreHit 10000000 (3/10) hitOlderC6).similarity := rfl
  have hts1 : (scoreHit 10000000 (3/10) hitOlderC6).timestamp = 7753600 := rfl
  have hts2 : (scoreHit 10000000 (3/10) hitNewerC6).timestamp = 7926400 := rfl
  rcases h with h | ⟨-, h⟩
  · rw [ha, hb] at h
    exact lt_irrefl _ h
  · rcases h with h | ⟨-, h⟩
    · rw [hsim] at h
      exact lt_irrefl _ h
    · rw [hts1, hts2] at h
      norm_num at h

/-- C6 (amended): `retrieve_memories` sorts the scored candidates descending
by `combined_score` alone with a stable sort — ties keep the candidates'
order (on an all-tied list the sort is the identity), with no
similarity/timestamp tie-break — and returns at most `top_k` of them;
consequently `combined_score` is monotonically non-increasing across the
returned sequence. -/
theorem C6_combined_score_monotone (now : ℚ) (hits : List Hit) (top_k : ℕ) (w : ℚ) :
    (retrieve_memories now hits top_k w).Pairwise
      (fun a b => b.combined_score ≤ a.combined_score) ∧
    (retrieve_memories now hits top_k w).length ≤ top_k ∧
    (∀ l : List ScoredMem,
      (∀ a ∈ l, ∀ b ∈ l, a.combined_score = b.combined_score) →
      sortByDesc (fun s => s.combined_score) l = l) := by
  refine ⟨?_, ?_, sortByDesc_of_all_eq _⟩
  · rw [retrieve_memories]
    split
    · simp
    · exact List.Pairwise.sublist (List.take_sublist _ _)
        (pairwise_sortByDesc (fun s : ScoredMem => s.combined_score) _)
  · rw [retrieve_memories]
    split
    · simp
    · exact List.length_take_le _ _

/-! ## Claim C2 — error propagation in the orchestrated turn -/

/-- A session mid-conversation: four stored messages and a prior rolling
summary. -/
def sessC2 : Session :=
  { session_id := "s1".toList, user_id := "u1".toList,
    title := "Pods crashlooping in prod".toList,
    messages := [Msg.mk ("user".toList) ("m1".toList) 1,
                 Msg.mk ("assistant".toList) ("r1".toList) 1,
                 Msg.mk ("user".toList) ("m2".toList) 2,
                 Msg.mk ("assistant".toList) ("r2".toList) 2],
    summary := some ("earlier incident summary".toList),
    created_at := 0, updated_at := 2 }

def profC2 : Profile := default_profile ("u1".toList) 0

/-- An environment whose reply generation succeeds but whose summarization
call raises. -/
def envC2fail : ChatEnv :=
  { now := 5, genReply := Except.ok ("the pods look healthy".toList),
    extractMems := Except.ok [], extractProfile := Except.ok [],
    summarize := Except.error () }

/-- An environment whose extraction calls raise but whose summarization
succeeds. -/
def envC2ok : ChatEnv :=
  { now := 5, genReply := Except.ok ("the pods look healthy".toList),
    extractMems := Except.error (), extractProfile := Except.error (),
    summarize := Except.ok ("updated summary".toList) }

/-- C2 counterexample: the reply is generated (`genReply` succeeded), the
turn reaches the unguarded rolling-summarization step, the external call
inside it fails — and the failure **does** surface to the caller (the turn
returns an error), contradicting the claim that failures after the reply
never surface.  The prior summary is indeed retained. -/
theorem C2_counterexample :
    (chat envC2fail sessC2 profC2 [] ("are they healthy now".toList)).result
      = Except.error () ∧
    envC2fail.genReply = Except.ok ("the pods look healthy".toList) ∧
    (chat envC2fail sessC2 profC2 [] ("are they healthy now".toList)).session.summary
      = sessC2.summary := ⟨rfl, rfl, rfl⟩

/-- C2 (amended): after the reply is generated, failures in memory
extraction/ingestion and profile-update are swallowed (the turn still returns
the reply), and a failing summarization leaves the prior summary unchanged —
but a summarization failure is *not* swallowed: when the trigger fires and the
external call raises, the error propagates to the caller.  Only when
summarization succeeds or is not due does the turn return the reply. -/
theorem C2_post_reply_failures (env : ChatEnv) (s0 : Session) (p0 : Profile)
    (mem0 : List (Str × Str)) (message r : Str)
    (hr : env.genReply = Except.ok r) :
    ((env.summarize = Except.error () →
        (chat env s0 p0 mem0 message).session.summary = s0.summary) ∧
     (∀ u, env.summarize = Except.ok u →
        (chat env s0 p0 mem0 message).result = Except.ok r) ∧
     (should_summarize (add_message env.now (add_message env.now s0 ("user".toList) message)
          ("assistant".toList) r).messages = false →
        (chat env s0 p0 mem0 message).result = Except.ok r) ∧
     (env.summarize = Except.error () →
      should_summarize (add_message env.now (add_message env.now s0 ("user".toList) message)
          ("assistant".toList) r).messages = true →
        (chat env s0 p0 mem0 message).result = Except.error ())) := by
  simp only [chat, hr]
  by_cases hs : should_summarize (add_message env.now
      (add_message env.now s0 ("user".toList) message) ("assistant".toList) r).messages = true
  · rw [if_pos hs]
    refine ⟨?_, ?_, ?_, ?_⟩
    · intro hsum
      rw [hsum]
      show (add_message env.now (add_message env.now s0 ("user".toList) message)
        ("assistant".toList) r).summary = s0.summary
      rw [add_message_summary, add_message_summary]
    · intro u hu
      rw [hu]
    · intro hfalse
      rw [hs] at hfalse
      cases hfalse
    · intro hsum _
      rw [hsum]
  · rw [if_neg hs]
    refine ⟨?_, ?_, ?_, ?_⟩
    · intro _
      show (add_message env.now (add_message env.now s0 ("user".toList) message)
        ("assistant".toList) r).summary = s0.summary
      rw [add_message_summary, add_message_summary]
    · intro u _
      rfl
    · intro _
      rfl
    · intro _ htrue
      exact absurd htrue hs

/-- Witness for C2: with both extraction calls failing and summarization
succeeding, the turn still returns the reply. -/
theorem C2_post_reply_failures_witness :
    (chat envC2ok sessC2 profC2 [] ("are they healthy now".toList)).result
      = Except.ok ("the pods look healthy".toList) :=
  (C2_post_reply_failures envC2ok sessC2 profC2 [] ("are they healthy now".toList)
    ("the pods look healthy".toList) rfl).2.1 ("updated summary".toList) rfl

/-- Two already-scored records tied on `combined_score`, in a fixed order. -/
def tiedA : ScoredMem :=
  { text := "a".toList, mem_id := "ma".toList, similarity := 1,
    recency_score := 1, combined_score := 1, timestamp := 1 }

def tiedB : ScoredMem :=
  { text := "b".toList, mem_id := "mb".toList, similarity := 0,
    recency_score := 1, combined_score := 1, timestamp := 2 }

/-- Witness for C6: a concrete retrieval is monotone, and a concrete all-tied
list is left in its original order by the stable sort. -/
theorem C6_combined_score_monotone_witness :
    (retrieve_memories 10000000 [hitOlderC6, hitNewerC6] 5 (3/10)).Pairwise
      (fun a b => b.combined_score ≤ a.combined_score) ∧
    sortByDesc (fun s => s.combined_score) [tiedA, tiedB] = [tiedA, tiedB] :=
  ⟨(C6_combined_score_monotone 10000000 [hitOlderC6, hitNewerC6] 5 (3/10)).1,
   (C6_combined_score_monotone 10000000 [hitOlderC6, hitNewerC6] 5 (3/10)).2.2
     [tiedA, tiedB] (by decide)⟩
